import Mathlib

/-!
Verification development for the `openapi-cli.py` command generator of the
repository Skeen/openapi-cli.

The Python source is shallowly embedded: JSON objects become structures of
`Option`-valued fields (a missing key is `none`, `obj["key"]` on a missing key
is a `KeyError`), Python dicts become association lists, the click option
machinery becomes explicit option records plus a binding function following
click's documented value-resolution order, and `httpx` becomes an explicit
transport oracle passed to the command body.  Fallible Python code returns
`Except`.
-/

set_option maxHeartbeats 1000000

namespace OpenapiCli

/-- Python values as they flow through the CLI: `None`, ints, bools, strings
and lists of strings (the four primitive option types of `str_to_type`). -/
inductive Value where
  | vnone : Value
  | vint (n : Int) : Value
  | vbool (b : Bool) : Value
  | vstr (s : String) : Value
  | vlist (xs : List String) : Value
  deriving DecidableEq

/-- Python `str(...)` on the values above; in particular `str(None) = "None"`
and `str(True) = "True"`. -/
def pyStr : Value → String
  | .vnone => "None"
  | .vint n => toString n
  | .vbool b => if b then "True" else "False"
  | .vstr s => s
  | .vlist xs =>
      "[" ++ String.intercalate ", "
        (xs.map (fun s => (Char.ofNat 39).toString ++ s ++ (Char.ofNat 39).toString)) ++ "]"

/-- The Python types `int`, `bool`, `str`, `list` used as click option types. -/
inductive PyType where
  | int | bool | str | list
  deriving DecidableEq

/-- `str_to_type` (source lines 32-42): maps an OpenAPI primitive type name to
a Python type and raises `TypeError` with the message `Unknown type: <name>`
for any other name. -/
def str_to_type (type_name : String) : Except String PyType :=
  if type_name = "integer" then .ok .int
  else if type_name = "boolean" then .ok .bool
  else if type_name = "string" then .ok .str
  else if type_name = "array" then .ok .list
  else .error ("Unknown type: " ++ type_name)

/-- The `schema` object shape the source reads: `schema.get("type", "string")`
and `schema.get("default", None)`. -/
structure SchemaSpec where
  type : Option String
  default : Option Value
  deriving DecidableEq

/-- One entry of an operation's `parameters` list, with exactly the keys the
source reads: `name`, `in` (named `location` here since `in` is a Lean
keyword), `required`, `description` and `schema`. -/
structure ParameterSpec where
  name : String
  location : String
  required : Option Bool
  description : Option String
  schema : SchemaSpec
  deriving DecidableEq

/-- A synthesized click option: the arguments of one `click.option(...)` call
in `add_parameters` (source lines 48-55). -/
structure OptionSpec where
  name : String
  help : Option String
  default : Option Value
  required : Bool
  ptype : PyType
  deriving DecidableEq

/-- The body of the loop in `add_parameters` (source lines 48-55): derive one
click option from one parameter; `str_to_type` may raise (TypeError) while the
command is being synthesized. -/
def option_of_parameter (p : ParameterSpec) : Except String OptionSpec :=
  (str_to_type (p.schema.type.getD "string")).map (fun t =>
    ⟨p.name, p.description, p.schema.default, p.required.getD true, t⟩)

/-- `add_parameters` (source lines 45-59): the options of a parameter list. -/
def add_parameters (parameters : List ParameterSpec) : Except String (List OptionSpec) :=
  parameters.mapM option_of_parameter

/-- Errors raised by click while binding option values. -/
inductive BindErr where
  | missingParameter (name : String)
  deriving DecidableEq

/-- Models click's option-value resolution (`Parameter.consume_value` followed
by the required check in `Parameter.process_value`): a value supplied on the
command line wins; otherwise the option's declared default is consumed; only a
value that is still missing after that trips the `required` check
(`MissingParameter`); an optional option without a default binds Python
`None`. -/
def bindOption (opt : OptionSpec) (supplied : Option Value) : Except BindErr Value :=
  match supplied with
  | some v => .ok v
  | none =>
    match opt.default with
    | some d => .ok d
    | none => if opt.required then .error (.missingParameter opt.name) else .ok .vnone

/-- Bind every synthesized option, producing the `kwargs` mapping click passes
to the command body. -/
def bindAll (opts : List OptionSpec) (supplied : List (String × Value)) :
    Except BindErr (List (String × Value)) :=
  opts.mapM (fun o => (bindOption o (List.lookup o.name supplied)).map (fun v => (o.name, v)))

/-- Fuel-indexed core of Python `str.replace` on character lists: replace each
leftmost non-overlapping occurrence of `pat` by `val`.  The program only ever
calls it with the nonempty pattern `"{" ++ name ++ "}"`. -/
def replaceFuel (pat val : List Char) : Nat → List Char → List Char
  | 0, s => s
  | _ + 1, [] => []
  | f + 1, c :: rest =>
    if pat.isPrefixOf (c :: rest) then
      val ++ replaceFuel pat val f (rest.drop (pat.length - 1))
    else
      c :: replaceFuel pat val f rest

/-- Python `s.replace(pat, val)` for a nonempty `pat`. -/
def pyReplace (s pat val : List Char) : List Char :=
  replaceFuel pat val s.length s

/-- Python `s.replace(pat, val)` on strings. -/
def pyReplaceS (s pat val : String) : String :=
  ⟨pyReplace s.toList pat.toList val.toList⟩

/-- Substring test on character lists: `pat` occurs somewhere in `s`. -/
def isSubL (pat : List Char) : List Char → Bool
  | [] => pat.isEmpty
  | c :: rest => pat.isPrefixOf (c :: rest) || isSubL pat rest

/-- Python `pat in s` for strings. -/
def occursIn (pat s : String) : Bool := isSubL pat.toList s.toList

/-- The path-templating loop of `create_command.func` in isolation (source
lines 71-74): the spec's `Path Templater.render`. -/
def render (template : String) (path_values : List (String × Value)) : String :=
  path_values.foldl (fun acc kv => pyReplaceS acc ("\x7b" ++ kv.1 ++ "\x7d") (pyStr kv.2)) template

/-- Errors the command body can raise before or at the HTTP call. -/
inductive ExecError where
  | keyError (name : String)
  | transport (msg : String)
  deriving DecidableEq

/-- One HTTP response as the Invoker sees it. -/
structure HttpResponse where
  status : Nat
  text : String
  deriving DecidableEq

/-- The loop of `create_command.func` (source lines 68-75): for each
`path`-located parameter, look its name up in `kwargs` (Python raises
`KeyError` when it is absent), substitute `{name}` in the path and `del` the
entry from `kwargs`. -/
def templateGo : List ParameterSpec → String → List (String × Value) →
    Except ExecError (String × List (String × Value))
  | [], path, kwargs => .ok (path, kwargs)
  | p :: rest, path, kwargs =>
    match List.lookup p.name kwargs with
    | none => .error (.keyError p.name)
    | some v =>
      templateGo rest (pyReplaceS path ("\x7b" ++ p.name ++ "\x7d") (pyStr v))
        (kwargs.filter (fun kv => kv.1 != p.name))

/-- The `request_path` and the remaining query `kwargs` computed by
`create_command.func` (source lines 68-75). -/
def prepareRequest (path : String) (parameters : List ParameterSpec)
    (kwargs : List (String × Value)) : Except ExecError (String × List (String × Value)) :=
  templateGo (parameters.filter (fun p => p.location == "path")) path kwargs

/-- The same loop, keeping the removed `(name, value)` pairs instead of
substituting them: the spec's `Parameter Binder.split`. -/
def splitGo : List ParameterSpec → List (String × Value) →
    Except ExecError (List (String × Value) × List (String × Value))
  | [], kwargs => .ok ([], kwargs)
  | p :: rest, kwargs =>
    match List.lookup p.name kwargs with
    | none => .error (.keyError p.name)
    | some v =>
      (splitGo rest (kwargs.filter (fun kv => kv.1 != p.name))).map
        (fun pq => ((p.name, v) :: pq.1, pq.2))

/-- `Parameter Binder.split`: path values and query values of a bound value
mapping (source lines 68-75). -/
def split (parameters : List ParameterSpec) (values : List (String × Value)) :
    Except ExecError (List (String × Value) × List (String × Value)) :=
  splitGo (parameters.filter (fun p => p.location == "path")) values

def BASE_URL : String := "http://localhost:8000"

/-- `create_command.func` end to end (source lines 67-78): template the path,
issue `httpx.request(method.upper(), BASE_URL + request_path, params=kwargs)`
through the `transport` oracle and print `response.text`.  The status code is
never inspected (`raise_for_status` is not called); only a transport-level
failure propagates out of the command. -/
def runLeaf (method path : String) (parameters : List ParameterSpec)
    (kwargs : List (String × Value))
    (transport : String → String → List (String × Value) → Except String HttpResponse) :
    Except ExecError String := do
  let rq ← prepareRequest path parameters kwargs
  match transport method.toUpper (BASE_URL ++ rq.1) rq.2 with
  | .error e => .error (.transport e)
  | .ok r => .ok r.text

/-- The parts of one operation object the source reads: `summary`,
`description` and `parameters` (all via `.get`, so all optional). -/
structure OperationObj where
  summary : Option String
  description : Option String
  parameters : Option (List ParameterSpec)
  deriving DecidableEq

/-- The parts of the `info` object the source reads. -/
structure InfoObj where
  title : Option String
  description : Option String
  version : Option String
  deriving DecidableEq

/-- The fetched `openapi.json` document with exactly the parts the source
reads.  `paths` is the JSON object as an ordered association list
path-template to (method to operation). -/
structure OpenApiJson where
  info : Option InfoObj
  openapi : Option String
  paths : Option (List (String × List (String × OperationObj)))
  deriving DecidableEq

/-- Errors that abort CLI construction (or the `version` command). -/
inductive CliErr where
  | keyError (name : String)
  | unknownType (msg : String)
  | reduceEmptyError
  deriving DecidableEq

/-- Python `obj["key"]`: `KeyError` when the key is absent. -/
def jsonGet {α : Type} (o : Option α) (key : String) : Except CliErr α :=
  match o with
  | some v => .ok v
  | none => .error (.keyError key)

/-- One synthesized leaf command: name is the path string, help text is
`summary + "\n\n" + description`, plus its click options. -/
structure Leaf where
  name : String
  help : String
  opts : List OptionSpec
  deriving DecidableEq

/-- One method group created by `create_group` (source lines 83-88). -/
structure Group where
  name : String
  help : String
  commands : List Leaf
  deriving DecidableEq

/-- The synthesized command tree: the `main` click group.  The fixed
`meta version` leaf is modelled separately as `version_cmd`. -/
structure CommandTree where
  doc : String
  groups : List Group
  deriving DecidableEq

/-- Python set union on key lists, order-normalized to first occurrence. -/
def unionL (a b : List String) : List String :=
  a ++ b.filter (fun m => !a.contains m)

/-- `reduce(set.union, (set(obj.keys()) for obj in paths.values()))` (source
lines 135-137): `functools.reduce` without an initial value raises `TypeError`
on an empty iterable. -/
def reduceUnion : List (List String) → Except CliErr (List String)
  | [] => .error .reduceEmptyError
  | x :: xs => .ok (xs.foldl unionL x)

/-- One leaf of `create_cli`'s inner loop (source lines 145-151):
`create_command` applies `add_parameters`, so an unknown schema type raises
while the tree is being built. -/
def makeLeaf (path : String) (method : String) (mobj : OperationObj) :
    Except CliErr (String × Leaf) :=
  ((add_parameters (mobj.parameters.getD [])).mapError CliErr.unknownType).map
    (fun opts =>
      (method, ⟨path, (mobj.summary.getD "") ++ "\n\n" ++ (mobj.description.getD ""), opts⟩))

/-- `create_cli` (source lines 91-153) after the fetch: build the main group's
doc string from `info.title` and `info.description`, one group per distinct
method (help `Collection of <method> calls`), and one leaf per (path, method)
pair attached to its method's group.  `info.version` and `openapi` are not
read here; they are only read when `version_cmd` runs. -/
def create_cli (j : OpenApiJson) : Except CliErr CommandTree := do
  let info ← jsonGet j.info "info"
  let title ← jsonGet info.title "title"
  let doc := title ++ "\n" ++ info.description.getD ""
  let paths ← jsonGet j.paths "paths"
  let methodKeys ← reduceUnion (paths.map (fun pr => (pr.2.map (fun mo => mo.1)).eraseDups))
  let leaves ← paths.mapM (fun pr => pr.2.mapM (fun mo => makeLeaf pr.1 mo.1 mo.2))
  let flat := leaves.flatten
  let groups := methodKeys.map (fun m =>
    ⟨m, "Collection of " ++ m ++ " calls", (flat.filter (fun ml => ml.1 == m)).map (fun ml => ml.2)⟩)
  .ok ⟨doc, groups⟩

def COMMAND_NAME : String := "openapi-cli"
def PROGRAM_NAME : String := "OpenAPI CLI"

/-- The `meta version` command body (source lines 114-133): it reads
`info.title`, `info.version` and `openapi` from the document only when the
command actually runs; the three environment strings fall back to the
`unknown_version` / `unknown_license` / `unknown_authors` literals. -/
def version_cmd (j : OpenApiJson) (envVersion envLicense envAuthors : Option String) :
    Except CliErr String := do
  let info ← jsonGet j.info "info"
  let title ← jsonGet info.title "title"
  let pver ← jsonGet info.version "version"
  let over ← jsonGet j.openapi "openapi"
  .ok (String.intercalate "\n"
    [title ++ " " ++ pver ++ " (OpenAPI: " ++ over ++ ")",
     "Generated using " ++ COMMAND_NAME ++ " (" ++ PROGRAM_NAME ++ ") "
       ++ envVersion.getD "unknown_version" ++ ".",
     "",
     envLicense.getD "unknown_license",
     "",
     "Written by " ++ envAuthors.getD "unknown_authors"])

/-- Did the computation return normally (process exit status 0)? -/
def isOkE {ε α : Type} (e : Except ε α) : Bool :=
  match e with
  | .ok _ => true
  | .error _ => false

/-! ### Lemmas about the character-level replace -/

theorem isPrefixOf_true_iff {l₁ l₂ : List Char} : l₁.isPrefixOf l₂ = true ↔ l₁ <+: l₂ :=
  List.isPrefixOf_iff_prefix

theorem replaceFuel_congr (pat val : List Char) :
    ∀ (f g : Nat) (s : List Char), s.length ≤ f → s.length ≤ g →
      replaceFuel pat val f s = replaceFuel pat val g s := by
  intro f
  induction f with
  | zero =>
    intro g s hf _
    have hs : s = [] := List.eq_nil_of_length_eq_zero (Nat.le_zero.mp hf)
    subst hs
    cases g <;> simp [replaceFuel]
  | succ f ih =>
    intro g s hf hg
    cases s with
    | nil => cases g <;> simp [replaceFuel]
    | cons c rest =>
      cases g with
      | zero => simp at hg
      | succ g =>
        have hrf : rest.length ≤ f := by simp at hf; omega
        have hrg : rest.length ≤ g := by simp at hg; omega
        have hd : (rest.drop (pat.length - 1)).length ≤ rest.length := by
          simp [List.length_drop]
        simp only [replaceFuel]
        by_cases hpre : pat.isPrefixOf (c :: rest)
        · simp only [hpre, if_true]
          exact congrArg (val ++ ·) (ih g _ (le_trans hd hrf) (le_trans hd hrg))
        · simp only [hpre, if_false]
          exact congrArg (c :: ·) (ih g rest hrf hrg)

theorem pyReplace_nil (pat val : List Char) : pyReplace [] pat val = [] := rfl

theorem pyReplace_cons_pos {pat : List Char} (val : List Char) {c : Char} {rest : List Char}
    (h : pat.isPrefixOf (c :: rest)) :
    pyReplace (c :: rest) pat val = val ++ pyReplace (rest.drop (pat.length - 1)) pat val := by
  show replaceFuel pat val (rest.length + 1) (c :: rest) = _
  simp only [replaceFuel, h, if_true]
  exact congrArg (val ++ ·)
    (replaceFuel_congr pat val rest.length _ _ (by simp [List.length_drop]) le_rfl)

theorem pyReplace_cons_neg {pat : List Char} (val : List Char) {c : Char} {rest : List Char}
    (h : ¬ pat.isPrefixOf (c :: rest)) :
    pyReplace (c :: rest) pat val = c :: pyReplace rest pat val := by
  show replaceFuel pat val (rest.length + 1) (c :: rest) = _
  simp only [replaceFuel, h, Bool.false_eq_true, if_false]
  rfl

/-- Replacing a pattern that does not occur is the identity. -/
theorem pyReplace_not_occurs {pat : List Char} (val : List Char) :
    ∀ {s : List Char}, ¬ pat <:+: s → pyReplace s pat val = s := by
  intro s
  induction s with
  | nil => intro _; rfl
  | cons c rest ih =>
    intro h
    have hpre : ¬ pat.isPrefixOf (c :: rest) := fun hp =>
      h (isPrefixOf_true_iff.mp hp).isInfix
    rw [pyReplace_cons_neg val hpre,
      ih (fun hi => h (hi.trans ( List.suffix_cons c rest).isInfix))]

/-- `isSubL` decides list-infixhood. -/
theorem isSubL_iff_infix {pat : List Char} : ∀ {s : List Char}, isSubL pat s = true ↔ pat <:+: s := by
  intro s
  induction s with
  | nil =>
    simp only [isSubL, List.isEmpty_iff, List.infix_nil]
  | cons c rest ih =>
    simp only [isSubL, Bool.or_eq_true, isPrefixOf_true_iff, ih, List.infix_cons_iff]

/-- `occursIn` decides string-level substring occurrence. -/
theorem occursIn_iff {pat s : String} :
    occursIn pat s = true ↔ pat.toList <:+: s.toList := isSubL_iff_infix

/-! ### Placeholder patterns -/

/-- The replace pattern of a placeholder name. -/
def plc (n : List Char) : List Char := '{' :: (n ++ ['}'])

/-- A name containing no brace character. -/
def BraceFreeL (n : List Char) : Prop := ('{' : Char) ∉ n ∧ ('}' : Char) ∉ n

theorem plc_length (n : List Char) : (plc n).length = n.length + 2 := by
  simp [plc]

theorem brace_append_inj : ∀ {n m t w : List Char},
    ('}' : Char) ∉ n → ('}' : Char) ∉ m →
    n ++ ('}' :: t) = m ++ ('}' :: w) → n = m := by
  intro n
  induction n with
  | nil =>
    intro m t w _ hm h
    cases m with
    | nil => rfl
    | cons c m' =>
      exfalso
      simp only [List.nil_append, List.cons_append, List.cons.injEq] at h
      apply hm
      rw [← h.1]
      exact List.mem_cons_self _ _
  | cons a n' ih =>
    intro m t w hn hm h
    cases m with
    | nil =>
      exfalso
      simp only [List.cons_append, List.nil_append, List.cons.injEq] at h
      apply hn
      rw [h.1]
      exact List.mem_cons_self _ _
    | cons c m' =>
      simp only [List.cons_append, List.cons.injEq] at h
      have htl := ih (fun hx => hn (List.mem_cons_of_mem _ hx))
        (fun hx => hm (List.mem_cons_of_mem _ hx)) h.2
      rw [h.1, htl]

theorem plc_append_inj {n m t w : List Char} (hn : BraceFreeL n) (hm : BraceFreeL m)
    (h : plc n ++ t = plc m ++ w) : n = m := by
  simp only [plc, List.cons_append, List.append_assoc, List.singleton_append,
    List.cons.injEq] at h
  exact brace_append_inj hn.2 hm.2 h.2

/-- If the pattern of one brace-free name is a prefix of `s` and the
placeholder of a different brace-free name occurs in `s`, the occurrence lies
entirely past the matched pattern. -/
theorem plc_infix_drop {m n s : List Char}
    (hbm : BraceFreeL m) (hbn : BraceFreeL n) (hne : n ≠ m)
    (hp : plc m <+: s) (hi : plc n <:+: s) :
    plc n <:+: s.drop (plc m).length := by
  obtain ⟨u, t, hs⟩ := hi
  by_cases hle : (plc m).length ≤ u.length
  · have hupre : u <+: s := ⟨plc n ++ t, by rw [← List.append_assoc, hs]⟩
    have h1 : plc m <+: u := List.prefix_of_prefix_length_le hp hupre hle
    obtain ⟨u', hu'⟩ := h1
    have hsplit : s = plc m ++ (u' ++ (plc n ++ t)) := by
      rw [← hs, ← hu']
      simp [List.append_assoc]
    rw [hsplit, List.drop_left]
    exact ⟨u', t, by rw [List.append_assoc]⟩
  · exfalso
    have hlt : u.length < (plc m).length := Nat.lt_of_not_le hle
    have hupre : u <+: s := ⟨plc n ++ t, by rw [← List.append_assoc, hs]⟩
    have h1 : u <+: plc m := List.prefix_of_prefix_length_le hupre hp (Nat.le_of_lt hlt)
    obtain ⟨r, hr⟩ := h1
    obtain ⟨w, hw⟩ := hp
    have hcan : plc n ++ t = r ++ w := by
      have h2 : u ++ (plc n ++ t) = u ++ (r ++ w) := by
        rw [← List.append_assoc, hs, ← hw, ← hr, List.append_assoc]
      exact List.append_cancel_left h2
    cases r with
    | nil =>
      rw [List.append_nil] at hr
      rw [hr] at hlt
      exact Nat.lt_irrefl _ hlt
    | cons r0 r' =>
      have hr0 : r0 = '{' := by
        have h3 : '{' :: ((n ++ ['}']) ++ t) = r0 :: (r' ++ w) := by
          simpa [plc, List.cons_append] using hcan
        injection h3 with h4 _
        exact h4.symm
      cases u with
      | nil =>
        simp only [List.nil_append] at hr
        exact hne (plc_append_inj hbn hbm (show plc n ++ t = plc m ++ w by rw [hcan, hr]))
      | cons u0 u'' =>
        have hr' : u0 = '{' ∧ u'' ++ r0 :: r' = m ++ ['}'] := by
          have h5 : u0 :: (u'' ++ r0 :: r') = '{' :: (m ++ ['}']) := by
            simpa [plc, List.cons_append] using hr
          injection h5 with h6 h7
          exact ⟨h6, h7⟩
        have hmem : ('{' : Char) ∈ m ++ ['}'] := by
          rw [← hr'.2]
          refine List.mem_append.mpr (Or.inr ?_)
          rw [hr0]
          exact List.mem_cons_self _ _
        rcases List.mem_append.mp hmem with hx | hx
        · exact hbm.1 hx
        · simp at hx

/-- A brace-free segment is copied verbatim by the replace loop when the
pattern starts with an opening brace. -/
theorem pyReplace_append_no_open (pat val p : List Char) (hpp : pat = '{' :: p) :
    ∀ (u t : List Char), ('{' : Char) ∉ u →
      pyReplace (u ++ t) pat val = u ++ pyReplace t pat val := by
  intro u
  induction u with
  | nil => intro t _; simp
  | cons x u ih =>
    intro t hu
    have hx : x ≠ '{' := fun h => hu (by simp [h])
    have hpre : ¬ pat.isPrefixOf (x :: (u ++ t)) := by
      intro hpf
      obtain ⟨w, hw⟩ := isPrefixOf_true_iff.mp hpf
      rw [hpp, List.cons_append] at hw
      injection hw with h1 _
      exact hx h1.symm
    rw [List.cons_append, pyReplace_cons_neg val hpre,
      ih t (fun h => hu (List.mem_cons_of_mem _ h))]
    rfl

/-- Replacing the placeholder of one brace-free name never destroys an
occurrence of the placeholder of a different brace-free name. -/
theorem pyReplace_preserves_plc {m n : List Char} (v : List Char)
    (hbm : BraceFreeL m) (hbn : BraceFreeL n) (hne : n ≠ m) :
    ∀ (s : List Char), plc n <:+: s → plc n <:+: pyReplace s (plc m) v := by
  have main : ∀ (k : Nat) (s : List Char), s.length ≤ k → plc n <:+: s →
      plc n <:+: pyReplace s (plc m) v := by
    intro k
    induction k with
    | zero =>
      intro s hlen hocc
      have hs : s = [] := List.eq_nil_of_length_eq_zero (Nat.le_zero.mp hlen)
      subst hs
      simp [plc] at hocc
    | succ k ih =>
      intro s hlen hocc
      cases s with
      | nil => simp [plc] at hocc
      | cons c rest =>
        by_cases hpre : (plc m).isPrefixOf (c :: rest)
        · rw [pyReplace_cons_pos v hpre]
          have hdrop : plc n <:+: (c :: rest).drop (plc m).length :=
            plc_infix_drop hbm hbn hne (isPrefixOf_true_iff.mp hpre) hocc
          have heq : (c :: rest).drop (plc m).length = rest.drop ((plc m).length - 1) := by
            rw [plc_length]
            exact List.drop_succ_cons
          have hlen2 : (rest.drop ((plc m).length - 1)).length ≤ k := by
            simp only [List.length_drop]
            simp at hlen
            omega
          have hrec := ih _ hlen2 (heq ▸ hdrop)
          exact hrec.trans ( List.suffix_append v _).isInfix
        · rw [pyReplace_cons_neg v hpre]
          rcases List.infix_cons_iff.mp hocc with hcase | hcase
          · obtain ⟨t, ht⟩ := hcase
            have hceq : '{' :: ((n ++ ['}']) ++ t) = c :: rest := by
              simpa [plc, List.cons_append] using ht
            have hc : c = '{' := by injection hceq with h1 _; exact h1.symm
            have hrest : rest = (n ++ ['}']) ++ t := by
              injection hceq with _ h2; exact h2.symm
            have hnol : ('{' : Char) ∉ (n ++ ['}']) := by
              intro hx
              rcases List.mem_append.mp hx with hx | hx
              · exact hbn.1 hx
              · simp at hx
            rw [hrest, pyReplace_append_no_open (plc m) v (m ++ ['}']) rfl _ _ hnol, hc]
            exact ⟨[], pyReplace t (plc m) v, by simp [plc]⟩
          · have h2 : rest.length ≤ k := by simp at hlen; omega
            exact List.infix_cons (ih rest h2 hcase)
  intro s
  exact main s.length s le_rfl

/-! ### Lemmas about the split loop -/

/-- The key set of a `kwargs` association list. -/
def keys (l : List (String × Value)) : List String := l.map Prod.fst

theorem lookup_of_mem_keys : ∀ (l : List (String × Value)) (n : String),
    n ∈ keys l → ∃ v, List.lookup n l = some v := by
  intro l
  induction l with
  | nil => intro n h; simp [keys] at h
  | cons kv l ih =>
    obtain ⟨k, v0⟩ := kv
    intro n h
    by_cases he : n = k
    · exact ⟨v0, by simp [List.lookup, he]⟩
    · have hmem : n ∈ keys l := by simpa [keys, he] using h
      obtain ⟨v, hv⟩ := ih n hmem
      have hbe : (n == k) = false := beq_eq_false_iff_ne.mpr he
      exact ⟨v, by simp [List.lookup, hbe, hv]⟩

theorem mem_keys_filter_ne {l : List (String × Value)} {a k : String} :
    k ∈ keys (l.filter (fun kv => kv.1 != a)) ↔ (k ∈ keys l ∧ k ≠ a) := by
  simp only [keys, List.mem_map, List.mem_filter, bne_iff_ne, ne_eq]
  constructor
  · rintro ⟨kv, ⟨h1, h2⟩, rfl⟩
    exact ⟨⟨kv, h1, rfl⟩, h2⟩
  · rintro ⟨⟨kv, h1, rfl⟩, h2⟩
    exact ⟨kv, ⟨h1, h2⟩, rfl⟩

/-- The split loop succeeds when the `path` parameter names are distinct and
all bound, and then it partitions the mapping. -/
theorem splitGo_ok : ∀ (ps : List ParameterSpec) (vals : List (String × Value)),
    (ps.map ParameterSpec.name).Nodup →
    (∀ x ∈ ps, x.name ∈ keys vals) →
    ∃ pv qv, splitGo ps vals = .ok (pv, qv) ∧
      keys pv = ps.map ParameterSpec.name ∧
      ∀ k, k ∈ keys qv ↔ (k ∈ keys vals ∧ k ∉ ps.map ParameterSpec.name) := by
  intro ps
  induction ps with
  | nil =>
    intro vals _ _
    exact ⟨[], vals, rfl, rfl, by simp⟩
  | cons p rest ih =>
    intro vals hnd hpresent
    obtain ⟨v, hv⟩ := lookup_of_mem_keys vals p.name (hpresent p (List.mem_cons_self p rest))
    rw [List.map_cons, List.nodup_cons] at hnd
    have hnd' : (rest.map ParameterSpec.name).Nodup := hnd.2
    have hhead : p.name ∉ rest.map ParameterSpec.name := hnd.1
    have hpresent' : ∀ x ∈ rest, x.name ∈ keys (vals.filter (fun kv => kv.1 != p.name)) := by
      intro x hx
      have hxne : x.name ≠ p.name := by
        intro h
        exact hhead (h ▸ List.mem_map_of_mem ParameterSpec.name hx)
      exact mem_keys_filter_ne.mpr ⟨hpresent x (List.mem_cons_of_mem p hx), hxne⟩
    obtain ⟨pv, qv, heq, hkeys, hqv⟩ := ih _ hnd' hpresent'
    refine ⟨(p.name, v) :: pv, qv, ?_, ?_, ?_⟩
    · simp only [splitGo, hv, heq]
      rfl
    · simp [keys] at hkeys ⊢
      exact hkeys
    · intro k
      rw [hqv k, mem_keys_filter_ne]
      simp only [List.map_cons, List.mem_cons]
      constructor
      · rintro ⟨⟨h1, h2⟩, h3⟩
        exact ⟨h1, fun h => h.elim h2 h3⟩
      · rintro ⟨h1, h2⟩
        exact ⟨⟨h1, fun h => h2 (Or.inl h)⟩, fun h => h2 (Or.inr h)⟩

/-- The path-templating loop and the split loop traverse `kwargs`
identically: the remaining query values agree. -/
theorem templateGo_snd : ∀ (ps : List ParameterSpec) (path : String)
    (vals : List (String × Value)),
    (templateGo ps path vals).map Prod.snd = (splitGo ps vals).map Prod.snd := by
  intro ps
  induction ps with
  | nil => intro path vals; rfl
  | cons p rest ih =>
    intro path vals
    simp only [templateGo, splitGo]
    cases hv : List.lookup p.name vals with
    | none => rfl
    | some v =>
      rw [ih]
      cases hs : splitGo rest (vals.filter (fun kv => kv.1 != p.name)) with
      | error e => rfl
      | ok pq => rfl

/-! ### String-level bridges -/

/-- A string containing no brace character. -/
def braceFree (s : String) : Bool := s.toList.all (fun c => (c != '{') && (c != '}'))

theorem braceFree_iff {s : String} : braceFree s = true ↔ BraceFreeL s.toList := by
  simp only [braceFree, List.all_eq_true, Bool.and_eq_true, bne_iff_ne, ne_eq, BraceFreeL]
  constructor
  · intro h
    exact ⟨fun hx => (h _ hx).1 rfl, fun hx => (h _ hx).2 rfl⟩
  · intro h c hc
    exact ⟨fun he => h.1 (he ▸ hc), fun he => h.2 (he ▸ hc)⟩

theorem toList_inj {a b : String} (h : a.toList = b.toList) : a = b := by
  cases a; cases b; exact congrArg String.mk h

theorem mkToList (s : String) : (⟨s.toList⟩ : String) = s := by
  cases s; rfl

theorem toList_braced (m : String) : ("\x7b" ++ m ++ "\x7d").toList = plc m.toList := rfl

theorem toList_pyReplaceS (s pat val : String) :
    (pyReplaceS s pat val).toList = pyReplace s.toList pat.toList val.toList := rfl

/-- One replace step of `render` never destroys the placeholder of a
different brace-free name. -/
theorem render_preserves (n : String) (hbn : braceFree n = true) :
    ∀ (pvs : List (String × Value)) (T : String),
      (∀ kv ∈ pvs, braceFree kv.1 = true) → (∀ kv ∈ pvs, kv.1 ≠ n) →
      occursIn ("\x7b" ++ n ++ "\x7d") T = true →
      occursIn ("\x7b" ++ n ++ "\x7d") (render T pvs) = true := by
  intro pvs
  induction pvs with
  | nil => intro T _ _ h; exact h
  | cons kv pvs ih =>
    intro T hbk hne hocc
    have hstep : render T (kv :: pvs)
        = render (pyReplaceS T ("\x7b" ++ kv.1 ++ "\x7d") (pyStr kv.2)) pvs := by
      simp [render]
    rw [hstep]
    refine ih _ (fun x hx => hbk x (List.mem_cons_of_mem kv hx))
      (fun x hx => hne x (List.mem_cons_of_mem kv hx)) ?_
    have hkb : BraceFreeL kv.1.toList :=
      braceFree_iff.mp (hbk kv (List.mem_cons_self kv pvs))
    have hnb : BraceFreeL n.toList := braceFree_iff.mp hbn
    have hnemm : n.toList ≠ kv.1.toList :=
      fun h => (hne kv (List.mem_cons_self kv pvs)) (toList_inj h).symm
    have hoccL : plc n.toList <:+: T.toList := by
      rw [← toList_braced n]
      exact occursIn_iff.mp hocc
    have hpres := pyReplace_preserves_plc (pyStr kv.2).toList hkb hnb hnemm T.toList hoccL
    rw [occursIn_iff, toList_braced, toList_pyReplaceS, toList_braced]
    exact hpres

theorem exceptBind_ok {ε α β : Type} (a : α) (f : α → Except ε β) :
    (Except.ok a >>= f : Except ε β) = f a := rfl

theorem exceptBind_error {ε α β : Type} (e : ε) (f : α → Except ε β) :
    (Except.error e >>= f : Except ε β) = Except.error e := rfl

/-! ### The claims -/

/-- C1: for every ParameterSpec whose schema carries a default value `D` and
that has no explicit `required` flag, the synthesized option is optional —
binding with the option not supplied succeeds — and the bound value is `D`
(click consumes the declared default before its required check, so the
`required=True` derived from the missing flag never fires). -/
theorem claim1_default_makes_optional (p : ParameterSpec) (D : Value) (opt : OptionSpec)
    (_hreq : p.required = none) (hdef : p.schema.default = some D)
    (hopt : option_of_parameter p = .ok opt) :
    bindOption opt none = .ok D := by
  unfold option_of_parameter at hopt
  cases hstr : str_to_type (p.schema.type.getD "string") with
  | error e => rw [hstr] at hopt; exact absurd hopt (by simp [Except.map])
  | ok t =>
    rw [hstr] at hopt
    simp only [Except.map, Except.ok.injEq] at hopt
    rw [← hopt]
    simp [bindOption, hdef]

theorem claim1_witness :
    bindOption ⟨"p", none, some (Value.vint 5), true, PyType.int⟩ none = .ok (Value.vint 5) :=
  claim1_default_makes_optional
    ⟨"p", "query", none, none, ⟨some "integer", some (Value.vint 5)⟩⟩
    (Value.vint 5) ⟨"p", none, some (Value.vint 5), true, PyType.int⟩ rfl rfl rfl

/-- C3: for a description with exactly the operations GET /a, GET /b and
POST /a, the synthesized tree has exactly one `get` group with exactly the
leaves `/a` and `/b` and exactly one `post` group with exactly the leaf `/a`,
each group carrying help text `Collection of <method> calls`. -/
theorem claim3_group_tree :
    (create_cli ⟨some ⟨some "T", none, some "1"⟩, some "3",
        some [("/a", [("get", ⟨none, none, none⟩), ("post", ⟨none, none, none⟩)]),
              ("/b", [("get", ⟨none, none, none⟩)])]⟩).map
      (fun t => t.groups.map (fun g => (g.name, g.help, g.commands.map Leaf.name)))
    = .ok [("get", "Collection of get calls", ["/a", "/b"]),
           ("post", "Collection of post calls", ["/a"])] := by
  rfl

/-- C5: the Type Mapper resolves exactly `integer`, `boolean`, `string` and
`array` to the corresponding Python types, and fails with a TypeError naming
the offending type name on every other input string. -/
theorem claim5_type_mapper :
    (str_to_type "integer" = .ok PyType.int ∧ str_to_type "boolean" = .ok PyType.bool ∧
     str_to_type "string" = .ok PyType.str ∧ str_to_type "array" = .ok PyType.list) ∧
    ∀ s : String, s ≠ "integer" → s ≠ "boolean" → s ≠ "string" → s ≠ "array" →
      str_to_type s = .error ("Unknown type: " ++ s) := by
  refine ⟨⟨rfl, rfl, rfl, rfl⟩, ?_⟩
  intro s h1 h2 h3 h4
  simp [str_to_type, h1, h2, h3, h4]

theorem claim5_witness : str_to_type "number" = .error ("Unknown type: " ++ "number") :=
  claim5_type_mapper.2 "number" (by decide) (by decide) (by decide) (by decide)

/-- C6: for every command invocation whose HTTP response arrives (whatever
its status code), the command body returns normally with the raw response
body, and only a transport-level failure is surfaced as a command failure. -/
theorem claim6_invoker_status_blind (method path : String) (params : List ParameterSpec)
    (kwargs : List (String × Value)) (rp : String) (q : List (String × Value))
    (hprep : prepareRequest path params kwargs = .ok (rp, q)) :
    (∀ r : HttpResponse, runLeaf method path params kwargs (fun _ _ _ => .ok r) = .ok r.text) ∧
    (∀ e : String, runLeaf method path params kwargs (fun _ _ _ => .error e)
        = .error (.transport e)) := by
  constructor
  · intro r
    simp only [runLeaf, hprep]
    rfl
  · intro e
    simp only [runLeaf, hprep]
    rfl

theorem claim6_witness :
    runLeaf "get" "/a" [] [] (fun _ _ _ => .ok ⟨404, "nope"⟩) = .ok "nope" :=
  (claim6_invoker_status_blind "get" "/a" [] [] "/a" [] rfl).1 ⟨404, "nope"⟩

/-- C8: CLI construction for a description whose `paths` mapping is empty
raises (the distinct-method `reduce` folds over an empty iterable) rather
than producing a root command with zero method groups. -/
theorem claim8_empty_paths :
    (∀ j : OpenApiJson, j.paths = some [] → isOkE (create_cli j) = false) ∧
    create_cli ⟨some ⟨some "T", none, some "1"⟩, some "3", some []⟩
      = .error CliErr.reduceEmptyError := by
  constructor
  · intro j hp
    cases hinfo : j.info with
    | none =>
      simp only [create_cli, jsonGet, hinfo]
      rfl
    | some info =>
      cases htitle : info.title with
      | none =>
        simp [create_cli, jsonGet, hinfo, htitle, exceptBind_ok, exceptBind_error, isOkE]
      | some t =>
        simp [create_cli, jsonGet, hinfo, htitle, hp, exceptBind_ok, exceptBind_error,
          reduceUnion, isOkE]
  · rfl

theorem claim8_witness : isOkE (create_cli ⟨none, none, some []⟩) = false :=
  claim8_empty_paths.1 ⟨none, none, some []⟩ rfl

/-- C9: a `path`-located parameter with an explicit `required: false` and no
schema default binds Python `None` when the option is not supplied, and the
command body substitutes the string `None` for its placeholder in the request
path. -/
theorem claim9_none_substitution :
    add_parameters [⟨"id", "path", some false, none, ⟨some "string", none⟩⟩]
      = .ok [⟨"id", none, none, false, PyType.str⟩] ∧
    bindOption ⟨"id", none, none, false, PyType.str⟩ none = .ok Value.vnone ∧
    prepareRequest "/item/\x7bid\x7d" [⟨"id", "path", some false, none, ⟨some "string", none⟩⟩]
      [("id", Value.vnone)] = .ok ("/item/None", []) := by
  refine ⟨rfl, rfl, ?_⟩
  rfl

/-- C2 (refuted as stated): a fetched description that has `info.title` and
`paths` but lacks the top-level `openapi` field constructs the CLI without any
error — `openapi` (and `info.version`) are only read when the `meta version`
command runs, so construction does not fail for them. -/
theorem claim2_counterexample :
    isOkE (create_cli ⟨some ⟨some "T", none, some "1"⟩, none,
      some [("/a", [("get", ⟨none, none, none⟩)])]⟩) = true := rfl

/-- C2 (amended): construction fails (KeyError, the spec's
MalformedDescription) when `info` / `info.title` / `paths` is absent, before
any command tree exists; a missing `info.version` or `openapi` instead makes
the `meta version` command fail when it executes. -/
theorem claim2_construction_failure :
    (∀ j : OpenApiJson,
       (j.info = none ∨ (∃ i, j.info = some i ∧ i.title = none) ∨ j.paths = none) →
       isOkE (create_cli j) = false) ∧
    (∀ (j : OpenApiJson) (i : InfoObj) (eV eL eA : Option String), j.info = some i →
       i.version = none → isOkE (version_cmd j eV eL eA) = false) ∧
    (∀ (j : OpenApiJson) (i : InfoObj) (eV eL eA : Option String), j.info = some i →
       j.openapi = none → isOkE (version_cmd j eV eL eA) = false) := by
  refine ⟨?_, ?_, ?_⟩
  · intro j h
    rcases h with hinfo | ⟨i, hinfo, htitle⟩ | hpaths
    · simp [create_cli, jsonGet, hinfo, exceptBind_error, isOkE]
    · simp [create_cli, jsonGet, hinfo, htitle, exceptBind_ok, exceptBind_error, isOkE]
    · cases hinfo : j.info with
      | none => simp [create_cli, jsonGet, hinfo, exceptBind_error, isOkE]
      | some i =>
        cases htitle : i.title with
        | none =>
          simp [create_cli, jsonGet, hinfo, htitle, exceptBind_ok, exceptBind_error, isOkE]
        | some t =>
          simp [create_cli, jsonGet, hinfo, htitle, hpaths, exceptBind_ok, exceptBind_error,
            isOkE]
  · intro j i eV eL eA hinfo hver
    cases htitle : i.title with
    | none => simp [version_cmd, jsonGet, hinfo, htitle, exceptBind_ok, exceptBind_error, isOkE]
    | some t =>
      simp [version_cmd, jsonGet, hinfo, htitle, hver, exceptBind_ok, exceptBind_error, isOkE]
  · intro j i eV eL eA hinfo hoapi
    cases htitle : i.title with
    | none => simp [version_cmd, jsonGet, hinfo, htitle, exceptBind_ok, exceptBind_error, isOkE]
    | some t =>
      cases hver : i.version with
      | none =>
        simp [version_cmd, jsonGet, hinfo, htitle, hver, exceptBind_ok, exceptBind_error, isOkE]
      | some pv =>
        simp [version_cmd, jsonGet, hinfo, htitle, hver, hoapi, exceptBind_ok,
          exceptBind_error, isOkE]

theorem claim2_witness :
    isOkE (create_cli ⟨some ⟨some "T", none, none⟩, some "3", none⟩) = false ∧
    isOkE (version_cmd ⟨some ⟨some "T", none, none⟩, some "3",
      some [("/a", [("get", ⟨none, none, none⟩)])]⟩ none none none) = false :=
  ⟨claim2_construction_failure.1 _ (Or.inr (Or.inr rfl)),
   claim2_construction_failure.2.1 _ ⟨some "T", none, none⟩ none none none rfl rfl⟩

/-- C4 (refuted as stated): with two path-located parameters that share a
name (click binds a single option value for them), the split loop deletes the
key at the first parameter and raises `KeyError` at the second — no partition
is produced. -/
theorem claim4_counterexample :
    split [⟨"x", "path", none, none, ⟨some "string", none⟩⟩,
           ⟨"x", "path", none, none, ⟨some "string", none⟩⟩]
      [("x", Value.vstr "1")] = .error (ExecError.keyError "x") := rfl

/-- C4 (amended): when the path-located parameter names are distinct and each
is a key of the mapping (as holds for a mapping the Parameter Binder
produced), split succeeds and partitions the mapping: every key of the input
is in exactly one of path_values and query_values, and path_values holds
exactly the keys whose ParameterSpec location is `path`. -/
theorem claim4_split_partitions (params : List ParameterSpec) (values : List (String × Value))
    (hnd : ((params.filter (fun p => p.location == "path")).map ParameterSpec.name).Nodup)
    (hpresent : ∀ x ∈ params.filter (fun p => p.location == "path"), x.name ∈ keys values) :
    ∃ pv qv, split params values = .ok (pv, qv) ∧
      (∀ k ∈ keys values, (k ∈ keys pv ∧ k ∉ keys qv) ∨ (k ∉ keys pv ∧ k ∈ keys qv)) ∧
      (∀ k, k ∈ keys pv ↔ ∃ x ∈ params, x.location = "path" ∧ x.name = k) := by
  obtain ⟨pv, qv, heq, hkeys, hqv⟩ :=
    splitGo_ok (params.filter (fun p => p.location == "path")) values hnd hpresent
  refine ⟨pv, qv, heq, ?_, ?_⟩
  · intro k hk
    by_cases hmem : k ∈ (params.filter (fun p => p.location == "path")).map ParameterSpec.name
    · refine Or.inl ⟨by rw [hkeys]; exact hmem, fun hq => ((hqv k).mp hq).2 hmem⟩
    · refine Or.inr ⟨fun hp => hmem (by rw [← hkeys]; exact hp), (hqv k).mpr ⟨hk, hmem⟩⟩
  · intro k
    rw [hkeys]
    constructor
    · intro hk
      rw [List.mem_map] at hk
      obtain ⟨x, hx, hxeq⟩ := hk
      rw [List.mem_filter] at hx
      refine ⟨x, hx.1, ?_, hxeq⟩
      simpa using hx.2
    · rintro ⟨x, hx, hloc, hname⟩
      rw [List.mem_map]
      refine ⟨x, ?_, hname⟩
      rw [List.mem_filter]
      exact ⟨hx, by simp [hloc]⟩

theorem claim4_witness :
    ∃ pv qv,
      split [⟨"i", "path", none, none, ⟨some "string", none⟩⟩,
             ⟨"q", "query", none, none, ⟨some "string", none⟩⟩]
        [("i", Value.vstr "1"), ("q", Value.vstr "2")] = .ok (pv, qv) ∧
      (∀ k ∈ keys [("i", Value.vstr "1"), ("q", Value.vstr "2")],
        (k ∈ keys pv ∧ k ∉ keys qv) ∨ (k ∉ keys pv ∧ k ∈ keys qv)) ∧
      (∀ k, k ∈ keys pv ↔
        ∃ x ∈ ([⟨"i", "path", none, none, ⟨some "string", none⟩⟩,
                ⟨"q", "query", none, none, ⟨some "string", none⟩⟩] : List ParameterSpec),
          x.location = "path" ∧ x.name = k) :=
  claim4_split_partitions _ _ (by decide) (by decide)

/-- C7 (refuted as stated): with a parameter name that itself contains a
brace, replacing its placeholder can consume an unmatched placeholder: the
template contains the placeholder of `n`, `n` matches no key, yet the
rendered output no longer contains it. -/
theorem claim7_counterexample :
    occursIn "\x7bn\x7d" "\x7bq\x7bn\x7d" = true ∧
    render "\x7bq\x7bn\x7d" [("q\x7bn", Value.vstr "VAL")] = "VAL" ∧
    occursIn "\x7bn\x7d" (render "\x7bq\x7bn\x7d" [("q\x7bn", Value.vstr "VAL")]) = false :=
  ⟨rfl, rfl, rfl⟩

/-- C7 (amended): render with an empty path_values returns every template
unchanged; and for brace-free names, every placeholder whose name matches no
(brace-free) key of path_values still occurs verbatim in the output, with no
error raised. -/
theorem claim7_render :
    (∀ T : String, render T [] = T) ∧
    (∀ (T : String) (pvs : List (String × Value)) (n : String),
      braceFree n = true → (∀ kv ∈ pvs, braceFree kv.1 = true) →
      (∀ kv ∈ pvs, kv.1 ≠ n) →
      occursIn ("\x7b" ++ n ++ "\x7d") T = true →
      occursIn ("\x7b" ++ n ++ "\x7d") (render T pvs) = true) := by
  refine ⟨fun T => rfl, ?_⟩
  intro T pvs n hbn hbk hne hocc
  exact render_preserves n hbn pvs T hbk hne hocc

theorem claim7_witness :
    occursIn "\x7bn\x7d" (render "/x/\x7bn\x7d/\x7bq\x7d" [("q", Value.vstr "V")]) = true :=
  claim7_render.2 "/x/\x7bn\x7d/\x7bq\x7d" [("q", Value.vstr "V")] "n"
    (by decide) (by decide) (by decide) (by decide)

/-- C10 (refuted as stated): the value of a path-located parameter whose
placeholder is absent from the template can still end up in the request path,
because an earlier substitution can introduce the placeholder: here the value
of `q` is the literal text of `n`'s placeholder, and `n`'s value `SECRET`
lands in the path. -/
theorem claim10_counterexample :
    occursIn "\x7bn\x7d" "/x/\x7bq\x7d" = false ∧
    prepareRequest "/x/\x7bq\x7d"
      [⟨"q", "path", none, none, ⟨some "string", none⟩⟩,
       ⟨"n", "path", none, none, ⟨some "string", none⟩⟩]
      [("q", Value.vstr "\x7bn\x7d"), ("n", Value.vstr "SECRET")]
      = .ok ("/x/SECRET", []) ∧
    occursIn "SECRET" "/x/SECRET" = true :=
  ⟨rfl, rfl, rfl⟩

/-- C10 (amended): the bound value of a path-located parameter is always
removed from the query values (it reaches no query parameter); and when it is
the only path-located parameter and its placeholder is absent, the request
path is the template unchanged, so the value appears in neither path nor
query. -/
theorem claim10_removed_from_query :
    (∀ (path : String) (params : List ParameterSpec) (values : List (String × Value))
       (p : ParameterSpec),
      ((params.filter (fun x => x.location == "path")).map ParameterSpec.name).Nodup →
      (∀ x ∈ params.filter (fun x => x.location == "path"), x.name ∈ keys values) →
      p ∈ params → p.location = "path" →
      ∃ rp qv, prepareRequest path params values = .ok (rp, qv) ∧ p.name ∉ keys qv) ∧
    (∀ (path : String) (p : ParameterSpec) (values : List (String × Value)) (v : Value),
      p.location = "path" → List.lookup p.name values = some v →
      occursIn ("\x7b" ++ p.name ++ "\x7d") path = false →
      prepareRequest path [p] values
        = .ok (path, values.filter (fun kv => kv.1 != p.name))) := by
  constructor
  · intro path params values p hnd hpres hmem hloc
    obtain ⟨pv, qv, heq, hkeys, hqv⟩ := splitGo_ok _ values hnd hpres
    have hsnd := templateGo_snd (params.filter (fun x => x.location == "path")) path values
    cases htg : templateGo (params.filter (fun x => x.location == "path")) path values with
    | error e =>
      rw [htg, heq] at hsnd
      exact absurd hsnd (by simp [Except.map])
    | ok rq =>
      rw [htg, heq] at hsnd
      simp only [Except.map, Except.ok.injEq] at hsnd
      refine ⟨rq.1, rq.2, htg, ?_⟩
      rw [hsnd]
      intro hk
      apply ((hqv p.name).mp hk).2
      rw [List.mem_map]
      refine ⟨p, ?_, rfl⟩
      rw [List.mem_filter]
      exact ⟨hmem, by simp [hloc]⟩
  · intro path p values v hloc hlook hocc
    have hni : ¬ (("\x7b" ++ p.name ++ "\x7d").toList <:+: path.toList) := by
      intro hi
      have hT := occursIn_iff.mpr hi
      rw [hocc] at hT
      exact Bool.false_ne_true hT
    have hfil : List.filter (fun x => x.location == "path") [p] = [p] := by
      simp [List.filter, hloc]
    have hrep : pyReplaceS path ("\x7b" ++ p.name ++ "\x7d") (pyStr v) = path := by
      show (⟨pyReplace path.toList ("\x7b" ++ p.name ++ "\x7d").toList (pyStr v).toList⟩ :
        String) = path
      rw [pyReplace_not_occurs (pyStr v).toList hni]
      exact mkToList path
    show templateGo (List.filter (fun x => x.location == "path") [p]) path values = _
    rw [hfil]
    simp only [templateGo, hlook, hrep]

theorem claim10_witness :
    ∃ rp qv, prepareRequest "/x/\x7bq\x7d" [⟨"q", "path", none, none, ⟨some "string", none⟩⟩]
      [("q", Value.vstr "1")] = .ok (rp, qv) ∧ "q" ∉ keys qv :=
  claim10_removed_from_query.1 "/x/\x7bq\x7d" _ _ _ (by decide) (by decide)
    (List.mem_cons_self _ _) rfl

end OpenapiCli
